import Mathlib

/-!
Verification of the computational core of the qt_dicom_viewer repository.

The development shallowly embeds the Python modules
`viewer/rtss_split_non_overlap.py` (ROI model, conflict graph, DSATUR
coloring), `viewer/utils.py` (patient/index coordinate transforms) and
`viewer/rtstruct.py` (contour rasterization) into Lean.

Modelling conventions:
* Python floats are modelled by `ℚ` (exact arithmetic stands in for
  floating point, as the specification's round-trip property demands).
* Python dicts are modelled by association lists in insertion order;
  Python sets by lists; `set`/`dict` membership by list membership.
* Calls into the third-party geometry libraries (shapely's
  `Polygon.area`, `Polygon.is_valid`, `intersection().area`,
  `intersects`, `bounds`, and matplotlib's `Path.contains_points`)
  are modelled as explicit oracle parameters: every theorem about code
  that calls them is proved for all oracles, or under explicitly stated
  hypotheses reflecting documented geometric facts about the library.
* The iteration order of the Python `set` `uncolored` inside
  `dsatur_coloring` is not specified by the language (string hashing is
  randomized across processes); it is made an explicit `order` argument
  of `dsatur_with_order`, and `dsatur_coloring` instantiates it with the
  dict-key insertion order.
-/

namespace QtViewer

/-- Association-list lookup, modelling a Python dict: the value of the
first entry with the given key (dicts never hold duplicate keys). -/
def alookup {κ β : Type} [DecidableEq κ] : List (κ × β) → κ → Option β
  | [], _ => none
  | (k, v) :: rest, q => if q = k then some v else alookup rest q

/-- The keys of an association list, in insertion order (Python dict key
order). -/
def keysOf {κ β : Type} (l : List (κ × β)) : List κ := l.map (·.1)

@[simp] theorem alookup_nil {κ β : Type} [DecidableEq κ] (q : κ) :
    alookup ([] : List (κ × β)) q = none := rfl

@[simp] theorem alookup_cons {κ β : Type} [DecidableEq κ] (k : κ) (v : β)
    (rest : List (κ × β)) (q : κ) :
    alookup ((k, v) :: rest) q = if q = k then some v else alookup rest q := rfl

@[simp] theorem keysOf_nil {κ β : Type} : keysOf ([] : List (κ × β)) = [] := rfl

@[simp] theorem keysOf_cons {κ β : Type} (p : κ × β) (l : List (κ × β)) :
    keysOf (p :: l) = p.1 :: keysOf l := rfl

theorem keysOf_append {κ β : Type} (l₁ l₂ : List (κ × β)) :
    keysOf (l₁ ++ l₂) = keysOf l₁ ++ keysOf l₂ := by
  simp [keysOf]

theorem alookup_mem {κ β : Type} [DecidableEq κ] {l : List (κ × β)} {q : κ} {v : β}
    (h : alookup l q = some v) : (q, v) ∈ l := by
  induction l with
  | nil => simp at h
  | cons p rest ih =>
    obtain ⟨k, w⟩ := p
    by_cases hq : q = k
    · subst hq
      simp at h
      simp [h]
    · simp [alookup, hq] at h
      exact List.mem_cons_of_mem _ (ih h)

theorem alookup_eq_none {κ β : Type} [DecidableEq κ] {l : List (κ × β)} {q : κ} :
    alookup l q = none ↔ q ∉ keysOf l := by
  induction l with
  | nil => simp
  | cons p rest ih =>
    obtain ⟨k, w⟩ := p
    by_cases hq : q = k <;> simp [alookup, hq, ih]

theorem alookup_isSome_of_mem_keys {κ β : Type} [DecidableEq κ]
    {l : List (κ × β)} {q : κ} (h : q ∈ keysOf l) : (alookup l q).isSome := by
  cases hl : alookup l q with
  | none => exact absurd (alookup_eq_none.mp hl) (by simp [h])
  | some v => simp

/-! ### The smallest free color

`color = 0; while color in neighbor_colors: color += 1` from
`dsatur_coloring` is modelled by `mex`, with an explicit fuel bound that
the loop provably never exhausts. -/

def mexAux (s : List ℕ) : ℕ → ℕ → ℕ
  | 0, c => c
  | fuel + 1, c => if c ∈ s then mexAux s fuel (c + 1) else c

def mex (s : List ℕ) : ℕ := mexAux s (s.length + 1) 0

theorem filter_length_mono {α : Type} {p q : α → Bool} (l : List α)
    (h : ∀ a, p a = true → q a = true) :
    (l.filter p).length ≤ (l.filter q).length :=
  (List.monotone_filter_right l h).length_le

theorem filter_succ_length_lt {s : List ℕ} {c : ℕ} (hc : c ∈ s) :
    (s.filter (fun x => decide (c + 1 ≤ x))).length <
      (s.filter (fun x => decide (c ≤ x))).length := by
  induction s with
  | nil => simp at hc
  | cons a t ih =>
    by_cases hac : a = c
    · subst hac
      rw [List.filter_cons_of_neg (by simp), List.filter_cons_of_pos (by simp)]
      have := filter_length_mono (p := fun x => decide (a + 1 ≤ x))
        (q := fun x => decide (a ≤ x)) t (by intro x hx; simp at hx ⊢; omega)
      simp only [List.length_cons]
      omega
    · have hct : c ∈ t := by
        rcases List.mem_cons.mp hc with h | h
        · exact absurd h.symm hac
        · exact h
      have := ih hct
      by_cases h1 : c + 1 ≤ a
      · rw [List.filter_cons_of_pos (by simp only [decide_eq_true_eq]; omega),
          List.filter_cons_of_pos (by simp only [decide_eq_true_eq]; omega)]
        simp only [List.length_cons]
        omega
      · by_cases h2 : c ≤ a
        · rw [List.filter_cons_of_neg (by simp only [decide_eq_true_eq]; omega),
            List.filter_cons_of_pos (by simp only [decide_eq_true_eq]; omega)]
          simp only [List.length_cons]
          omega
        · rw [List.filter_cons_of_neg (by simp only [decide_eq_true_eq]; omega),
            List.filter_cons_of_neg (by simp only [decide_eq_true_eq]; omega)]
          omega

theorem mexAux_not_mem {s : List ℕ} :
    ∀ (fuel c : ℕ), (s.filter (fun x => decide (c ≤ x))).length < fuel →
      mexAux s fuel c ∉ s := by
  intro fuel
  induction fuel with
  | zero => intro c h; omega
  | succ n ih =>
    intro c h
    by_cases hc : c ∈ s
    · have hlt := filter_succ_length_lt hc
      simp only [mexAux, if_pos hc]
      exact ih (c + 1) (by omega)
    · simp only [mexAux, if_neg hc]
      exact hc

theorem mex_not_mem (s : List ℕ) : mex s ∉ s := by
  apply mexAux_not_mem
  have : (s.filter (fun x => decide (0 ≤ x))).length ≤ s.length :=
    List.length_filter_le _ s
  omega

theorem mexAux_lower {s : List ℕ} :
    ∀ (fuel c k : ℕ), c ≤ k → k < mexAux s fuel c → k ∈ s := by
  intro fuel
  induction fuel with
  | zero => intro c k hck h; simp [mexAux] at h; omega
  | succ n ih =>
    intro c k hck h
    by_cases hc : c ∈ s
    · simp only [mexAux, if_pos hc] at h
      by_cases hkc : k = c
      · subst hkc; exact hc
      · exact ih (c + 1) k (by omega) h
    · simp only [mexAux, if_neg hc] at h
      omega

theorem mex_lower {s : List ℕ} {k : ℕ} (h : k < mex s) : k ∈ s :=
  mexAux_lower (s.length + 1) 0 k (Nat.zero_le _) h

theorem mex_le_length (s : List ℕ) : mex s ≤ s.length := by
  have hsub : (List.range (mex s)).toFinset ⊆ s.toFinset := by
    intro k hk
    simp only [List.mem_toFinset, List.mem_range] at hk ⊢
    exact mex_lower hk
  have h1 : (List.range (mex s)).toFinset.card = mex s := by
    rw [List.toFinset_card_of_nodup (List.nodup_range _), List.length_range]
  have h2 := Finset.card_le_card hsub
  have h3 := s.toFinset_card_le
  omega

/-! ### Python `max(iterable, key=...)`

Python's `max` scans the iterable keeping the current best and replaces
it only on a strictly larger key, so it returns the first element
attaining the maximum in iteration order.  Keys in `dsatur_coloring` are
`(saturation, degree)` pairs compared lexicographically. -/

/-- Strict lexicographic comparison of `(saturation, degree)` pairs,
matching Python tuple comparison. -/
def tupLt (p q : ℕ × ℕ) : Bool :=
  decide (p.1 < q.1) || (decide (p.1 = q.1) && decide (p.2 < q.2))

theorem tupLt_irrefl (p : ℕ × ℕ) : tupLt p p = false := by
  simp [tupLt]

theorem tupLt_asymm {p q : ℕ × ℕ} (h : tupLt p q = true) : tupLt q p = false := by
  simp [tupLt] at h ⊢
  omega

theorem tupLt_trans {p q r : ℕ × ℕ} (h1 : tupLt p q = true)
    (h2 : tupLt q r = true) : tupLt p r = true := by
  simp [tupLt] at h1 h2 ⊢
  omega

theorem tupLt_lt_of_le {p q r : ℕ × ℕ} (h1 : tupLt p q = true)
    (h2 : tupLt r q = false) : tupLt p r = true := by
  simp [tupLt] at h1 h2 ⊢
  omega

theorem tupLt_le_trans {p q r : ℕ × ℕ} (h1 : tupLt q p = false)
    (h2 : tupLt r q = false) : tupLt r p = false := by
  simp [tupLt] at h1 h2 ⊢
  omega

theorem tupLt_le_lt {p q r : ℕ × ℕ} (h1 : tupLt q p = false)
    (h2 : tupLt q r = true) : tupLt p r = true := by
  simp [tupLt] at h1 h2 ⊢
  omega

def pyMaxCore {α : Type} (key : α → ℕ × ℕ) : α → List α → α
  | best, [] => best
  | best, y :: ys => pyMaxCore key (if tupLt (key best) (key y) then y else best) ys

/-- Python `max(l, key=key)`: `none` on an empty iterable (Python raises),
otherwise the first element of `l` attaining the maximal key. -/
def pyMax {α : Type} (key : α → ℕ × ℕ) : List α → Option α
  | [] => none
  | x :: xs => some (pyMaxCore key x xs)

theorem pyMaxCore_spec {α : Type} (key : α → ℕ × ℕ) :
    ∀ (l : List α) (best : α),
      (∀ u ∈ best :: l, tupLt (key (pyMaxCore key best l)) (key u) = false) ∧
      (pyMaxCore key best l = best ∨
        ∃ l₁ l₂, l = l₁ ++ pyMaxCore key best l :: l₂ ∧
          tupLt (key best) (key (pyMaxCore key best l)) = true ∧
          ∀ u ∈ l₁, tupLt (key u) (key (pyMaxCore key best l)) = true) := by
  intro l
  induction l with
  | nil =>
    intro best
    refine ⟨?_, Or.inl rfl⟩
    intro u hu
    simp at hu
    subst hu
    exact tupLt_irrefl _
  | cons y ys ih =>
    intro best
    cases hby : tupLt (key best) (key y) with
    | true =>
      have hstep : pyMaxCore key best (y :: ys) = pyMaxCore key y ys := by
        simp [pyMaxCore, hby]
      obtain ⟨hmax, hfirst⟩ := ih y
      rw [hstep]
      have hry : tupLt (key (pyMaxCore key y ys)) (key y) = false := hmax y (by simp)
      have hbr : tupLt (key best) (key (pyMaxCore key y ys)) = true :=
        tupLt_lt_of_le hby hry
      constructor
      · intro w hw
        rcases List.mem_cons.mp hw with h | h
        · subst h; exact tupLt_asymm hbr
        · exact hmax w h
      · rcases hfirst with h | ⟨l₁, l₂, hsplit, hyr, hl₁⟩
        · refine Or.inr ⟨[], ys, ?_, hbr, by simp⟩
          rw [h]
          simp
        · refine Or.inr ⟨y :: l₁, l₂, by rw [List.cons_append, ← hsplit], hbr, ?_⟩
          intro w hw
          rcases List.mem_cons.mp hw with h | h
          · subst h; exact hyr
          · exact hl₁ w h
    | false =>
      have hstep : pyMaxCore key best (y :: ys) = pyMaxCore key best ys := by
        simp [pyMaxCore, hby]
      obtain ⟨hmax, hfirst⟩ := ih best
      rw [hstep]
      have hrb : tupLt (key (pyMaxCore key best ys)) (key best) = false :=
        hmax best (by simp)
      constructor
      · intro w hw
        rcases List.mem_cons.mp hw with h | h
        · subst h; exact hrb
        · rcases List.mem_cons.mp h with h2 | h2
          · subst h2; exact tupLt_le_trans hby hrb
          · exact hmax w (by simp [h2])
      · rcases hfirst with h | ⟨l₁, l₂, hsplit, hbr, hl₁⟩
        · exact Or.inl h
        · refine Or.inr ⟨y :: l₁, l₂, by rw [List.cons_append, ← hsplit], hbr, ?_⟩
          intro w hw
          rcases List.mem_cons.mp hw with h | h
          · subst h; exact tupLt_le_lt hby hbr
          · exact hl₁ w h

theorem pyMaxCore_mem {α : Type} (key : α → ℕ × ℕ) :
    ∀ (l : List α) (best : α), pyMaxCore key best l = best ∨ pyMaxCore key best l ∈ l := by
  intro l
  induction l with
  | nil => intro best; exact Or.inl rfl
  | cons y ys ih =>
    intro best
    cases hby : tupLt (key best) (key y) with
    | true =>
      have hstep : pyMaxCore key best (y :: ys) = pyMaxCore key y ys := by
        simp [pyMaxCore, hby]
      rw [hstep]
      rcases ih y with h | h
      · exact Or.inr (by simp [h])
      · exact Or.inr (by simp [h])
    | false =>
      have hstep : pyMaxCore key best (y :: ys) = pyMaxCore key best ys := by
        simp [pyMaxCore, hby]
      rw [hstep]
      rcases ih best with h | h
      · exact Or.inl h
      · exact Or.inr (by simp [h])

theorem pyMax_mem {α : Type} {key : α → ℕ × ℕ} {l : List α} {v : α}
    (h : pyMax key l = some v) : v ∈ l := by
  cases l with
  | nil => simp [pyMax] at h
  | cons x xs =>
    simp only [pyMax, Option.some.injEq] at h
    rcases pyMaxCore_mem key xs x with h' | h'
    · rw [← h, h']; simp
    · rw [← h]; simp [h']

theorem pyMax_eq_none {α : Type} {key : α → ℕ × ℕ} {l : List α}
    (h : pyMax key l = none) : l = [] := by
  cases l with
  | nil => rfl
  | cons x xs => simp [pyMax] at h

/-! ### DSATUR coloring (`dsatur_coloring` in `rtss_split_non_overlap.py`)

The conflict graph `graph` is a dict mapping a vertex to the set of its
neighbours; it is modelled as an association list in dict insertion
order, with each adjacency set as a list.  -/

/-- The neighbour set `graph[v]` of a vertex; `[]` for a vertex absent
from the dict (Python would raise `KeyError`, but the algorithm only
ever indexes declared keys). -/
def adj {α : Type} [DecidableEq α] (g : List (α × List α)) (v : α) : List α :=
  (alookup g v).getD []

/-- Number of distinct colors among the already-colored neighbours of
`n`: models `len({colors[k] for k in graph[n] if k in colors})`. -/
def distinctColors {α : Type} [DecidableEq α] (g : List (α × List α))
    (colors : List (α × ℕ)) (n : α) : ℕ :=
  (((adj g n).filterMap (fun k => alookup colors k)).dedup).length

/-- One-loop-iteration-per-fuel-unit embedding of the `while uncolored:`
loop of `dsatur_coloring`.  `sat` and `deg` are the `saturation` and
`degrees` dicts (as functions), `colors` the accumulating result (most
recent assignment first; the Python dict holds the same mapping in
reverse insertion order), `uncolored` the `uncolored` set in its
iteration order. -/
def dsaturAux {α : Type} [DecidableEq α] (g : List (α × List α)) (deg : α → ℕ) :
    ℕ → (α → ℕ) → List (α × ℕ) → List α → List (α × ℕ)
  | 0, _, colors, _ => colors
  | fuel + 1, sat, colors, uncolored =>
    match pyMax (fun x => (sat x, deg x)) uncolored with
    | none => colors
    | some v =>
      let ncolors := (adj g v).filterMap (fun n => alookup colors n)
      let c := mex ncolors
      let colors2 := (v, c) :: colors
      let sat2 := fun n =>
        if n ∈ adj g v ∧ n ∈ uncolored then distinctColors g colors2 n else sat n
      dsaturAux g deg fuel sat2 colors2 (uncolored.erase v)

/-- `dsatur_coloring`, parameterized by the iteration order of the
Python set `uncolored = set(graph.keys())`.  That order is an arbitrary
function of the runtime's string hashing; all correctness theorems hold
for every order whose elements are the graph's keys. -/
def dsatur_with_order {α : Type} [DecidableEq α] (g : List (α × List α))
    (order : List α) : List (α × ℕ) :=
  dsaturAux g (fun v => (adj g v).length) order.length (fun _ => 0) [] order

/-- `dsatur_coloring(graph)` with the set-iteration order instantiated
to the dict-key insertion order. -/
def dsatur_coloring {α : Type} [DecidableEq α] (g : List (α × List α)) :
    List (α × ℕ) :=
  dsatur_with_order g (keysOf g)

/-- One `sets[color].append(roi_name)` step of `split_into_sets`, on the
defaultdict modelled as an association list. -/
def groupInsert {α : Type} (sets : List (ℕ × List α)) (c : ℕ) (name : α) :
    List (ℕ × List α) :=
  if c ∈ keysOf sets then
    sets.map (fun q => if q.1 = c then (q.1, q.2 ++ [name]) else q)
  else sets ++ [(c, [name])]

/-- `split_into_sets(colors)`: the defaultdict(list) grouping of region
names by color.  Our association list stores the most recent assignment
first, so groups and members appear here in reverse Python insertion
order; the number of groups (all any theorem below uses) is unaffected. -/
def split_into_sets {α : Type} (colors : List (α × ℕ)) : List (ℕ × List α) :=
  colors.foldl (fun sets p => groupInsert sets p.2 p.1) []

/-- The largest adjacency-set size appearing in the graph. -/
def maxDegree {α : Type} (g : List (α × List α)) : ℕ :=
  (g.map (fun p => p.2.length)).foldr max 0

/-- The invariants a conflict graph satisfies per the specification's
data model: dict keys are unique, every listed neighbour is a declared
key, adjacency is symmetric, and there are no self-loops. -/
def WellFormed {α : Type} [DecidableEq α] (g : List (α × List α)) : Prop :=
  (keysOf g).Nodup ∧
    ∀ p ∈ g, ∀ b ∈ p.2, b ∈ keysOf g ∧ p.1 ∈ adj g b ∧ b ≠ p.1

instance {α : Type} [DecidableEq α] (g : List (α × List α)) :
    Decidable (WellFormed g) := by
  unfold WellFormed
  infer_instance

theorem WellFormed.symm {α : Type} [DecidableEq α] {g : List (α × List α)}
    (h : WellFormed g) {a b : α} (hab : b ∈ adj g a) : a ∈ adj g b := by
  unfold adj at hab
  cases hl : alookup g a with
  | none => rw [hl] at hab; simp at hab
  | some l =>
    rw [hl] at hab
    simp at hab
    exact ((h.2 (a, l) (alookup_mem hl) b hab).2).1

theorem WellFormed.irrefl {α : Type} [DecidableEq α] {g : List (α × List α)}
    (h : WellFormed g) (a : α) : a ∉ adj g a := by
  intro hab
  unfold adj at hab
  cases hl : alookup g a with
  | none => rw [hl] at hab; simp at hab
  | some l =>
    rw [hl] at hab
    simp at hab
    exact ((h.2 (a, l) (alookup_mem hl) a hab).2).2 rfl

theorem WellFormed.closed {α : Type} [DecidableEq α] {g : List (α × List α)}
    (h : WellFormed g) {a b : α} (hab : b ∈ adj g a) : b ∈ keysOf g := by
  unfold adj at hab
  cases hl : alookup g a with
  | none => rw [hl] at hab; simp at hab
  | some l =>
    rw [hl] at hab
    simp at hab
    exact (h.2 (a, l) (alookup_mem hl) b hab).1

theorem mem_keys_of_adj {α : Type} [DecidableEq α] {g : List (α × List α)}
    {a b : α} (hab : b ∈ adj g a) : a ∈ keysOf g := by
  unfold adj at hab
  cases hl : alookup g a with
  | none => rw [hl] at hab; simp at hab
  | some l =>
    rcases alookup_eq_none (l := g) (q := a) with ⟨_, h2⟩
    by_contra hk
    rw [alookup_eq_none.mpr hk] at hl
    cases hl

/-- Fuel equal to the number of uncolored vertices suffices: every
vertex that is uncolored or already colored ends up colored.  This is
the termination/progress argument of the `while uncolored:` loop: each
iteration colors exactly one vertex (the `pyMax` pick, which is a member
of `uncolored`) and removes it from `uncolored`. -/
theorem dsaturAux_total {α : Type} [DecidableEq α] (g : List (α × List α))
    (deg : α → ℕ) :
    ∀ (fuel : ℕ) (sat : α → ℕ) (colors : List (α × ℕ)) (uncolored : List α),
      uncolored.length ≤ fuel →
      ∀ v, (v ∈ uncolored ∨ (alookup colors v).isSome) →
        (alookup (dsaturAux g deg fuel sat colors uncolored) v).isSome := by
  intro fuel
  induction fuel with
  | zero =>
    intro sat colors uncolored hlen v hv
    have : uncolored = [] := List.length_eq_zero.mp (Nat.le_zero.mp hlen)
    subst this
    rcases hv with h | h
    · simp at h
    · simpa [dsaturAux] using h
  | succ n ih =>
    intro sat colors uncolored hlen v hv
    show (alookup (dsaturAux g deg (n + 1) sat colors uncolored) v).isSome
    rw [dsaturAux]
    cases hmax : pyMax (fun x => (sat x, deg x)) uncolored with
    | none =>
      have : uncolored = [] := pyMax_eq_none hmax
      subst this
      rcases hv with h | h
      · simp at h
      · simpa using h
    | some w =>
      have hwmem : w ∈ uncolored := pyMax_mem hmax
      have hlen2 : (uncolored.erase w).length ≤ n := by
        rw [List.length_erase_of_mem hwmem]
        have : 1 ≤ uncolored.length := List.length_pos_of_mem hwmem
        omega
      apply ih _ _ _ hlen2
      rcases hv with h | h
      · by_cases hvw : v = w
        · subst hvw
          exact Or.inr (by simp [alookup])
        · exact Or.inl ((List.mem_erase_of_ne hvw).mpr h)
      · right
        by_cases hvw : v = w
        · subst hvw; simp [alookup]
        · simpa [alookup, hvw] using h

/-- Properness invariant: as long as the graph is symmetric and has no
self-loops, the accumulated color map never assigns equal colors to
adjacent vertices, because the chosen color is the least color absent
from the colored neighbourhood of the picked vertex. -/
theorem dsaturAux_proper {α : Type} [DecidableEq α] {g : List (α × List α)}
    (deg : α → ℕ)
    (hsym : ∀ a b, b ∈ adj g a → a ∈ adj g b)
    (hirr : ∀ a, a ∉ adj g a) :
    ∀ (fuel : ℕ) (sat : α → ℕ) (colors : List (α × ℕ)) (uncolored : List α),
      uncolored.Nodup →
      (∀ x ∈ uncolored, alookup colors x = none) →
      (∀ a b ca cb, alookup colors a = some ca → alookup colors b = some cb →
        b ∈ adj g a → ca ≠ cb) →
      ∀ a b ca cb,
        alookup (dsaturAux g deg fuel sat colors uncolored) a = some ca →
        alookup (dsaturAux g deg fuel sat colors uncolored) b = some cb →
        b ∈ adj g a → ca ≠ cb := by
  intro fuel
  induction fuel with
  | zero =>
    intro sat colors uncolored _ _ hproper
    simpa [dsaturAux] using hproper
  | succ n ih =>
    intro sat colors uncolored hnd hnone hproper a b ca cb ha hb hab
    rw [dsaturAux] at ha hb
    cases hmax : pyMax (fun x => (sat x, deg x)) uncolored with
    | none =>
      rw [hmax] at ha hb
      exact hproper a b ca cb ha hb hab
    | some v =>
      rw [hmax] at ha hb
      have hvmem : v ∈ uncolored := pyMax_mem hmax
      have hvnone : alookup colors v = none := hnone v hvmem
      refine ih _ ((v, mex ((adj g v).filterMap (fun n => alookup colors n))) :: colors)
        (uncolored.erase v) (hnd.erase v) ?_ ?_ a b ca cb ha hb hab
      · intro x hx
        have hxv : x ≠ v := by
          intro hxv
          subst hxv
          exact (hnd.not_mem_erase) hx
        have hxmem : x ∈ uncolored := (List.mem_erase_of_ne hxv).mp hx
        simp [alookup, hxv, hnone x hxmem]
      · intro a2 b2 ca2 cb2 ha2 hb2 hab2
        by_cases ha2v : a2 = v
        · subst ha2v
          by_cases hb2v : b2 = a2
          · subst hb2v
            exact absurd hab2 (hirr _)
          · have hca2 : ca2 = mex ((adj g a2).filterMap (fun n => alookup colors n)) := by
              simp [alookup] at ha2
              omega
            have hb2c : alookup colors b2 = some cb2 := by
              simpa [alookup, hb2v] using hb2
            have hmem : cb2 ∈ (adj g a2).filterMap (fun n => alookup colors n) :=
              List.mem_filterMap.mpr ⟨b2, hab2, hb2c⟩
            intro hEq
            rw [hca2] at hEq
            rw [← hEq] at hmem
            exact mex_not_mem _ hmem
        · by_cases hb2v : b2 = v
          · subst hb2v
            have hcb2 : cb2 = mex ((adj g b2).filterMap (fun n => alookup colors n)) := by
              simp [alookup] at hb2
              omega
            have ha2c : alookup colors a2 = some ca2 := by
              simpa [alookup, ha2v] using ha2
            have hadj : a2 ∈ adj g b2 := hsym a2 b2 hab2
            have hmem : ca2 ∈ (adj g b2).filterMap (fun n => alookup colors n) :=
              List.mem_filterMap.mpr ⟨a2, hadj, ha2c⟩
            intro hEq
            rw [hcb2] at hEq
            rw [hEq] at hmem
            exact mex_not_mem _ hmem
          · exact hproper a2 b2 ca2 cb2 (by simpa [alookup, ha2v] using ha2)
              (by simpa [alookup, hb2v] using hb2) hab2

/-- Every color recorded by the loop is bounded by the degree of its
vertex: the least free color is at most the number of colored
neighbours. -/
theorem dsaturAux_entry_bound {α : Type} [DecidableEq α] {g : List (α × List α)}
    (deg : α → ℕ) :
    ∀ (fuel : ℕ) (sat : α → ℕ) (colors : List (α × ℕ)) (uncolored : List α),
      (∀ p ∈ colors, p.2 ≤ (adj g p.1).length) →
      ∀ p ∈ dsaturAux g deg fuel sat colors uncolored, p.2 ≤ (adj g p.1).length := by
  intro fuel
  induction fuel with
  | zero =>
    intro sat colors uncolored h
    simpa [dsaturAux] using h
  | succ n ih =>
    intro sat colors uncolored h p hp
    rw [dsaturAux] at hp
    cases hmax : pyMax (fun x => (sat x, deg x)) uncolored with
    | none =>
      rw [hmax] at hp
      exact h p hp
    | some v =>
      rw [hmax] at hp
      refine ih _ _ _ ?_ p hp
      intro q hq
      rcases List.mem_cons.mp hq with h1 | h1
      · subst h1
        calc mex ((adj g v).filterMap (fun n => alookup colors n))
            ≤ ((adj g v).filterMap (fun n => alookup colors n)).length :=
              mex_le_length _
          _ ≤ (adj g v).length := List.length_filterMap_le _ _
      · exact h q h1

theorem le_foldr_max {l : List ℕ} {x : ℕ} (h : x ∈ l) : x ≤ l.foldr max 0 := by
  induction l with
  | nil => simp at h
  | cons a t ih =>
    rcases List.mem_cons.mp h with h1 | h1
    · subst h1
      simp only [List.foldr_cons]
      exact Nat.le_max_left x (t.foldr max 0)
    · simp only [List.foldr_cons]
      exact Nat.le_trans (ih h1) (Nat.le_max_right a (t.foldr max 0))

theorem adj_length_le_maxDegree {α : Type} [DecidableEq α]
    (g : List (α × List α)) (v : α) : (adj g v).length ≤ maxDegree g := by
  unfold adj maxDegree
  cases hl : alookup g v with
  | none => simp
  | some l =>
    have hmem : l.length ∈ g.map (fun p => p.2.length) :=
      List.mem_map.mpr ⟨(v, l), alookup_mem hl, rfl⟩
    simpa using le_foldr_max hmem

theorem keysOf_map_fst_preserve {κ β : Type} (sets : List (κ × β))
    (f : κ × β → κ × β) (hf : ∀ q, (f q).1 = q.1) :
    keysOf (sets.map f) = keysOf sets := by
  induction sets with
  | nil => rfl
  | cons a t ih =>
    simp only [List.map_cons, keysOf_cons, ih]
    rw [hf a]

theorem keysOf_groupInsert {α : Type} (sets : List (ℕ × List α)) (c : ℕ) (name : α) :
    keysOf (groupInsert sets c name) =
      if c ∈ keysOf sets then keysOf sets else keysOf sets ++ [c] := by
  unfold groupInsert
  by_cases hc : c ∈ keysOf sets
  · rw [if_pos hc, if_pos hc]
    apply keysOf_map_fst_preserve
    intro q
    by_cases hq : q.1 = c <;> simp [hq]
  · rw [if_neg hc, if_neg hc, keysOf_append]
    rfl

theorem split_foldl_keys {α : Type} (colors : List (α × ℕ)) :
    ∀ acc : List (ℕ × List α), (keysOf acc).Nodup →
      (keysOf (colors.foldl (fun sets p => groupInsert sets p.2 p.1) acc)).Nodup ∧
      ∀ k ∈ keysOf (colors.foldl (fun sets p => groupInsert sets p.2 p.1) acc),
        k ∈ keysOf acc ∨ ∃ n, (n, k) ∈ colors := by
  induction colors with
  | nil =>
    intro acc h
    exact ⟨h, fun k hk => Or.inl hk⟩
  | cons p t ih =>
    intro acc h
    simp only [List.foldl_cons]
    have hkeys := keysOf_groupInsert acc p.2 p.1
    have hstep : (keysOf (groupInsert acc p.2 p.1)).Nodup := by
      rw [hkeys]
      by_cases hc : p.2 ∈ keysOf acc
      · rw [if_pos hc]; exact h
      · rw [if_neg hc]
        simpa [List.nodup_append] using ⟨h, hc⟩
    obtain ⟨h1, h2⟩ := ih (groupInsert acc p.2 p.1) hstep
    refine ⟨h1, ?_⟩
    intro k hk
    rcases h2 k hk with hk2 | ⟨n, hn⟩
    · rw [hkeys] at hk2
      by_cases hc : p.2 ∈ keysOf acc
      · rw [if_pos hc] at hk2
        exact Or.inl hk2
      · rw [if_neg hc] at hk2
        rcases List.mem_append.mp hk2 with h3 | h3
        · exact Or.inl h3
        · simp at h3
          subst h3
          exact Or.inr ⟨p.1, by simp⟩
    · exact Or.inr ⟨n, by simp [hn]⟩

theorem split_length_le {α : Type} (colors : List (α × ℕ)) (D : ℕ)
    (h : ∀ p ∈ colors, p.2 ≤ D) :
    (split_into_sets colors).length ≤ D + 1 := by
  obtain ⟨hnd, hmem⟩ := split_foldl_keys colors [] (by simp [keysOf])
  have hbound : ∀ k ∈ keysOf (split_into_sets colors), k < D + 1 := by
    intro k hk
    rcases hmem k hk with h0 | ⟨n, hn⟩
    · simp [keysOf] at h0
    · have := h (n, k) hn
      simp at this
      omega
  have hsub : (keysOf (split_into_sets colors)).toFinset ⊆ Finset.range (D + 1) := by
    intro k hk
    simp only [List.mem_toFinset] at hk
    simp only [Finset.mem_range]
    exact hbound k hk
  have h1 : (keysOf (split_into_sets colors)).toFinset.card
      = (keysOf (split_into_sets colors)).length := List.toFinset_card_of_nodup hnd
  have h2 := Finset.card_le_card hsub
  rw [Finset.card_range] at h2
  have h3 : (split_into_sets colors).length = (keysOf (split_into_sets colors)).length := by
    simp [keysOf]
  omega

/-! ### Claim theorems for the DSATUR colorer -/

/-- C1.  For every conflict graph given to the colorer (per the data
model: unique keys, neighbours among the keys, symmetric, no
self-loops), and for every iteration order of the `uncolored` set
enumerating the graph's keys, the produced ColorAssignment is a proper
coloring: for every edge (a,b) the colors of a and b differ. -/
theorem dsatur_coloring_proper {α : Type} [DecidableEq α]
    (g : List (α × List α)) (order : List α)
    (hwf : WellFormed g) (hord : order.Nodup)
    (hcover : ∀ x, x ∈ keysOf g → x ∈ order)
    (a b : α) (hab : b ∈ adj g a) :
    alookup (dsatur_with_order g order) a ≠ alookup (dsatur_with_order g order) b := by
  have hka : a ∈ keysOf g := mem_keys_of_adj hab
  have hkb : b ∈ keysOf g := hwf.closed hab
  unfold dsatur_with_order
  have hta := dsaturAux_total g (fun v => (adj g v).length) order.length
    (fun _ => 0) [] order (Nat.le_refl _) a (Or.inl (hcover a hka))
  have htb := dsaturAux_total g (fun v => (adj g v).length) order.length
    (fun _ => 0) [] order (Nat.le_refl _) b (Or.inl (hcover b hkb))
  obtain ⟨ca, hca⟩ := Option.isSome_iff_exists.mp hta
  obtain ⟨cb, hcb⟩ := Option.isSome_iff_exists.mp htb
  have hne := dsaturAux_proper (g := g) (fun v => (adj g v).length)
    (fun x y hxy => hwf.symm hxy) hwf.irrefl order.length (fun _ => 0) [] order
    hord (by simp) (by simp) a b ca cb hca hcb hab
  rw [hca, hcb]
  simp [hne]

/-- Witness for C1 on a concrete triangle conflict graph. -/
def gTriW : List (ℕ × List ℕ) := [(1, [2, 3]), (2, [1, 3]), (3, [1, 2])]

theorem dsatur_coloring_proper_witness :
    WellFormed gTriW ∧ (2 : ℕ) ∈ adj gTriW 1 ∧
      alookup (dsatur_with_order gTriW [1, 2, 3]) 1 ≠
        alookup (dsatur_with_order gTriW [1, 2, 3]) 2 :=
  ⟨by decide, by decide,
    dsatur_coloring_proper gTriW [1, 2, 3] (by decide) (by decide) (by decide)
      1 2 (by decide)⟩

/-- C9.  The colorer terminates on every finite graph — fuel equal to
the vertex count suffices because each iteration colors and removes
exactly one uncolored vertex — and assigns every vertex of the graph a
(non-negative, `ℕ`-valued) color, for every iteration order of the
`uncolored` set covering the keys. -/
theorem dsatur_terminates_colors_all {α : Type} [DecidableEq α]
    (g : List (α × List α)) (order : List α)
    (hcover : ∀ x, x ∈ keysOf g → x ∈ order)
    (v : α) (hv : v ∈ keysOf g) :
    ∃ c : ℕ, alookup (dsatur_with_order g order) v = some c := by
  unfold dsatur_with_order
  exact Option.isSome_iff_exists.mp
    (dsaturAux_total g (fun u => (adj g u).length) order.length (fun _ => 0) []
      order (Nat.le_refl _) v (Or.inl (hcover v hv)))

theorem dsatur_terminates_colors_all_witness :
    (1 : ℕ) ∈ keysOf gTriW ∧
      ∃ c : ℕ, alookup (dsatur_with_order gTriW [1, 2, 3]) 1 = some c :=
  ⟨by decide,
    dsatur_terminates_colors_all gTriW [1, 2, 3] (by decide) 1 (by decide)⟩

/-- C10.  Every assigned color is at most the vertex's neighbour count
(the least free color is bounded by the number of colored neighbours),
and hence the number of groups in the resulting partition is at most the
maximum degree plus one. -/
theorem dsatur_color_le_degree {α : Type} [DecidableEq α]
    (g : List (α × List α)) (order : List α) :
    (∀ v c, alookup (dsatur_with_order g order) v = some c →
      c ≤ (adj g v).length) ∧
    (split_into_sets (dsatur_with_order g order)).length ≤ maxDegree g + 1 := by
  have hbound : ∀ p ∈ dsatur_with_order g order, p.2 ≤ (adj g p.1).length := by
    intro p hp
    exact dsaturAux_entry_bound (g := g) (fun u => (adj g u).length) order.length
      (fun _ => 0) [] order (by simp) p hp
  constructor
  · intro v c hc
    exact hbound (v, c) (alookup_mem hc)
  · apply split_length_le
    intro p hp
    exact Nat.le_trans (hbound p hp) (adj_length_le_maxDegree g p.1)

theorem dsatur_color_le_degree_witness :
    alookup (dsatur_with_order gTriW [1, 2, 3]) 3 = some 2 ∧
      (2 : ℕ) ≤ (adj gTriW 3).length ∧
      (split_into_sets (dsatur_with_order gTriW [1, 2, 3])).length ≤ maxDegree gTriW + 1 :=
  ⟨by decide,
    (dsatur_color_le_degree gTriW [1, 2, 3]).1 3 2 (by decide),
    (dsatur_color_le_degree gTriW [1, 2, 3]).2⟩

/-- C7 (amended).  The colorer is deterministic given the graph and the
iteration order of the `uncolored` set: the vertex selected by
`max(uncolored, key=lambda x: (saturation[x], degrees[x]))` is exactly
the first vertex in that iteration order whose (saturation, degree) key
is maximal — every earlier vertex has a strictly smaller key.  Ties in
(saturation, degree) are therefore broken by the `uncolored`
set-iteration order, which Python does not fix across runs. -/
theorem dsatur_tiebreak_first_in_order {α : Type} (sat deg : α → ℕ)
    (uncolored : List α) (v : α)
    (h : pyMax (fun x => (sat x, deg x)) uncolored = some v) :
    v ∈ uncolored ∧
    (∀ u ∈ uncolored, tupLt (sat v, deg v) (sat u, deg u) = false) ∧
    ∃ l₁ l₂, uncolored = l₁ ++ v :: l₂ ∧
      ∀ u ∈ l₁, tupLt (sat u, deg u) (sat v, deg v) = true := by
  cases uncolored with
  | nil => simp [pyMax] at h
  | cons x xs =>
    simp only [pyMax, Option.some.injEq] at h
    obtain ⟨hmax, hfirst⟩ := pyMaxCore_spec (fun x => (sat x, deg x)) xs x
    rw [h] at hmax hfirst
    have hvmem : v ∈ x :: xs := by
      rcases hfirst with h1 | ⟨l₁, l₂, hsplit, _, _⟩
      · rw [h1]; simp
      · rw [hsplit]; simp
    refine ⟨hvmem, hmax, ?_⟩
    rcases hfirst with h1 | ⟨l₁, l₂, hsplit, hxv, hl₁⟩
    · exact ⟨[], xs, by rw [h1]; simp, by simp⟩
    · refine ⟨x :: l₁, l₂, by rw [List.cons_append, hsplit], ?_⟩
      intro u hu
      rcases List.mem_cons.mp hu with h2 | h2
      · subst h2
        exact hxv
      · exact hl₁ u h2

theorem dsatur_tiebreak_first_in_order_witness :
    (3 : ℕ) ∈ [1, 3, 2] ∧
    (∀ u ∈ ([1, 3, 2] : List ℕ), tupLt (0, 3) (0, u) = false) ∧
    ∃ l₁ l₂, ([1, 3, 2] : List ℕ) = l₁ ++ 3 :: l₂ ∧
      ∀ u ∈ l₁, tupLt (0, u) (0, 3) = true :=
  dsatur_tiebreak_first_in_order (fun _ => 0) (fun x => x) [1, 3, 2] 3 (by decide)

/-- Counterexample for C7 as stated: on the path graph a–b–c–d (a
symmetric dict with insertion order a,b,c,d), two legitimate iteration
orders of the set `uncolored = set(graph.keys())` — both enumerating
exactly the same four keys, as the permutation conjunct certifies —
lead the tie-breaks to different picks and the runs to different
ColorAssignments: vertex "a" receives color 1 under one order and color
0 under the other.  The tie-breaking therefore does depend on the
arbitrary set-iteration order. -/
def gP4 : List (String × List String) :=
  [("a", ["b"]), ("b", ["a", "c"]), ("c", ["b", "d"]), ("d", ["c"])]

theorem dsatur_order_dependent_cex :
    (["a", "b", "c", "d"] : List String).Perm ["d", "c", "b", "a"] ∧
    alookup (dsatur_with_order gP4 ["a", "b", "c", "d"]) "a" = some 1 ∧
    alookup (dsatur_with_order gP4 ["d", "c", "b", "a"]) "a" = some 0 := by
  refine ⟨by decide, by decide, by decide⟩

/-! ### ROI data model and conflict graph
(`rtss_split_non_overlap.py`)

Planar points are pairs of rationals; a shapely `Polygon` object is
modelled by its coordinate ring.  The shapely geometry computations the
source calls are an oracle parameter (`ShapelyModel`): theorems hold for
every oracle, or under stated hypotheses reflecting documented
geometric facts. -/

/-- A 2D point (shapely coordinate). -/
abbrev Pt : Type := ℚ × ℚ

/-- A shapely `Polygon`, identified with its coordinate ring. -/
abbrev Poly : Type := List Pt

/-- Oracle for the shapely computations used by the source: polygon
validity, ring area, `intersection(..).area`, boolean `intersects`, and
`bounds` (min x, min y, max x, max y).  The `Option` results model the
`try/except` fallbacks in `roi_intersect`: `none` means the library call
raised. -/
structure ShapelyModel where
  is_valid : Poly → Bool
  area : Poly → ℚ
  inter_area : Poly → Poly → Option ℚ
  intersects : Poly → Poly → Option Bool
  bounds : Poly → Option (ℚ × ℚ × ℚ × ℚ)

/-- An ROI: number, name, and the dict from quantized z to the list of
polygons on that plane (`self.slices`). -/
structure ROI where
  number : ℤ
  name : String
  slices : List (ℚ × List Poly)

/-- `xy + [xy[0]]` closing applied by `add_polygon` to a 3-point input. -/
def close3 (xy : List Pt) : List Pt :=
  if xy.length = 3 then xy ++ xy.take 1 else xy

/-- `defaultdict(list)` append: `self.slices[z].append(poly)`. -/
def slicesAppend (slices : List (ℚ × List Poly)) (z : ℚ) (poly : Poly) :
    List (ℚ × List Poly) :=
  if z ∈ keysOf slices then
    slices.map (fun p => if p.1 = z then (p.1, p.2 ++ [poly]) else p)
  else slices ++ [(z, [poly])]

/-- `ROI.add_polygon(self, z, xy)`: drop inputs of fewer than 3 points,
close exactly-3-point inputs by repeating the first point, then store
the polygon iff shapely reports it valid with positive area. -/
def ROI.add_polygon (m : ShapelyModel) (r : ROI) (z : ℚ) (xy : List Pt) : ROI :=
  if xy.length < 3 then r
  else if m.is_valid (close3 xy) && decide (0 < m.area (close3 xy)) then
    { r with slices := slicesAppend r.slices z (close3 xy) }
  else r

/-- The polygon list of an ROI at a z level (`roi.slices[z]`). -/
def slicesAt (r : ROI) (z : ℚ) : List Poly :=
  (alookup r.slices z).getD []

/-- One polygon-pair test from the inner loop of `roi_intersect`:
bounding-box pruning, then intersection area, falling back to the
boolean `intersects` predicate if the area computation raised, and
skipping the pair if that raised too (or if `bounds` raised). -/
def polyPairHit (m : ShapelyModel) (pa pb : Poly) : Bool :=
  match m.bounds pa, m.bounds pb with
  | some (minx1, miny1, maxx1, maxy1), some (minx2, miny2, maxx2, maxy2) =>
    if maxx1 < minx2 ∨ maxx2 < minx1 then false
    else if maxy1 < miny2 ∨ maxy2 < miny1 then false
    else
      match m.inter_area pa pb with
      | some ar => decide (0 < ar)
      | none =>
        match m.intersects pa pb with
        | some b => b
        | none => false
  | _, _ => false

/-- `roi_intersect(roi_a, roi_b)`: if the two ROIs share no z level the
answer is immediately `False`; otherwise some polygon pair on some
shared level must hit. -/
def roi_intersect (m : ShapelyModel) (a b : ROI) : Bool :=
  let common := (keysOf a.slices).filter (fun z => decide (z ∈ keysOf b.slices))
  if common.isEmpty then false
  else common.any (fun z =>
    (slicesAt a z).any (fun pa =>
      (slicesAt b z).any (fun pb => polyPairHit m pa pb)))

/-- `graph = {roi.name: set() for roi in rois}` — dict keys keep the
first-insertion position, every value an empty set. -/
def initGraph (rois : List ROI) : List (String × List String) :=
  rois.foldl
    (fun g r => if r.name ∈ keysOf g then g else g ++ [(r.name, [])]) []

/-- `graph[a].add(b)` — append `b` to the adjacency set of `a` unless
already present; a no-op if `a` is not a key. -/
def addNbr (g : List (String × List String)) (a b : String) :
    List (String × List String) :=
  g.map (fun p => if p.1 = a ∧ b ∉ p.2 then (p.1, p.2 ++ [b]) else p)

/-- `graph[a].add(b); graph[b].add(a)`. -/
def addEdge (g : List (String × List String)) (a b : String) :
    List (String × List String) :=
  addNbr (addNbr g a b) b a

/-- The pair loop `for i / for j in range(i+1, len(rois))` of
`build_conflict_graph`. -/
def addPairs (m : ShapelyModel) : List ROI → List (String × List String) →
    List (String × List String)
  | [], g => g
  | r :: rest, g =>
    addPairs m rest
      (rest.foldl
        (fun g s => if roi_intersect m r s then addEdge g r.name s.name else g) g)

/-- `build_conflict_graph(rois)`. -/
def build_conflict_graph (m : ShapelyModel) (rois : List ROI) :
    List (String × List String) :=
  addPairs m rois (initGraph rois)

theorem alookup_addNbr (g : List (String × List String)) (a b y : String) :
    alookup (addNbr g a b) y =
      if y = a then (alookup g a).map (fun l => if b ∈ l then l else l ++ [b])
      else alookup g y := by
  induction g with
  | nil => by_cases hy : y = a <;> simp [addNbr, hy]
  | cons p t ih =>
    obtain ⟨k, l⟩ := p
    show alookup ((if k = a ∧ b ∉ l then (k, l ++ [b]) else (k, l)) :: addNbr t a b) y = _
    by_cases hka : k = a
    · subst hka
      by_cases hbl : b ∈ l
      · rw [if_neg (by simp [hbl])]
        by_cases hyk : y = k
        · subst hyk
          simp [hbl]
        · simp [hyk, ih]
      · rw [if_pos ⟨rfl, hbl⟩]
        by_cases hyk : y = k
        · subst hyk
          simp [hbl]
        · simp [hyk, ih]
    · rw [if_neg (by simp [hka])]
      by_cases hyk : y = k
      · subst hyk
        simp [hka, Ne.symm hka]
      · simp [hyk, ih, Ne.symm hka]

theorem keysOf_addNbr (g : List (String × List String)) (a b : String) :
    keysOf (addNbr g a b) = keysOf g := by
  apply keysOf_map_fst_preserve
  intro q
  by_cases h : q.1 = a ∧ b ∉ q.2 <;> simp [h]

theorem mem_adj_addNbr {g : List (String × List String)} {a b x y : String} :
    x ∈ adj (addNbr g a b) y ↔
      x ∈ adj g y ∨ (y = a ∧ x = b ∧ a ∈ keysOf g) := by
  unfold adj
  rw [alookup_addNbr]
  by_cases hy : y = a
  · subst hy
    rw [if_pos rfl]
    cases hl : alookup g y with
    | none =>
      have hk : y ∉ keysOf g := alookup_eq_none.mp hl
      simp [hk]
    | some l =>
      have hk : y ∈ keysOf g := by
        by_contra hkk
        rw [alookup_eq_none.mpr hkk] at hl
        cases hl
      by_cases hbl : b ∈ l
      · show x ∈ (if b ∈ l then l else l ++ [b]) ↔ _
        rw [if_pos hbl]
        constructor
        · exact fun h => Or.inl h
        · rintro (h | ⟨-, h2, -⟩)
          · exact h
          · rw [h2]; exact hbl
      · show x ∈ (if b ∈ l then l else l ++ [b]) ↔ _
        rw [if_neg hbl, List.mem_append]
        simp [hk]
  · simp [hy]

theorem keysOf_addEdge (g : List (String × List String)) (a b : String) :
    keysOf (addEdge g a b) = keysOf g := by
  unfold addEdge
  rw [keysOf_addNbr, keysOf_addNbr]

theorem mem_adj_addEdge {g : List (String × List String)} {a b x y : String} :
    x ∈ adj (addEdge g a b) y ↔
      x ∈ adj g y ∨ (y = a ∧ x = b ∧ a ∈ keysOf g) ∨
        (y = b ∧ x = a ∧ b ∈ keysOf g) := by
  unfold addEdge
  rw [mem_adj_addNbr, mem_adj_addNbr, keysOf_addNbr]
  tauto

/-- `addEdge` keeps the graph symmetric as long as both endpoints are
keys. -/
theorem addEdge_symm {g : List (String × List String)} {a b : String}
    (hsym : ∀ x y, x ∈ adj g y ↔ y ∈ adj g x)
    (ha : a ∈ keysOf g) (hb : b ∈ keysOf g) :
    ∀ x y, x ∈ adj (addEdge g a b) y ↔ y ∈ adj (addEdge g a b) x := by
  intro x y
  rw [@mem_adj_addEdge g a b x y, @mem_adj_addEdge g a b y x, hsym x y]
  tauto

/-- `addEdge` between two distinct names creates no self-loop. -/
theorem addEdge_no_self_loop {g : List (String × List String)} {a b : String}
    (hab : a ≠ b) (h : ∀ c, c ∉ adj g c) :
    ∀ c, c ∉ adj (addEdge g a b) c := by
  intro c hc
  rw [mem_adj_addEdge] at hc
  rcases hc with h1 | ⟨h1, h2, _⟩ | ⟨h1, h2, _⟩
  · exact h c h1
  · exact hab (h1.symm.trans h2)
  · exact hab (h2.symm.trans h1)

theorem initGraph_entries (rois : List ROI) :
    ∀ p ∈ initGraph rois, p.2 = ([] : List String) := by
  unfold initGraph
  suffices h : ∀ (l : List ROI) (acc : List (String × List String)),
      (∀ p ∈ acc, p.2 = ([] : List String)) →
      ∀ p ∈ l.foldl
        (fun g r => if r.name ∈ keysOf g then g else g ++ [(r.name, [])]) acc,
        p.2 = ([] : List String) by
    exact h rois [] (by simp)
  intro l
  induction l with
  | nil => intro acc hacc; simpa using hacc
  | cons r t ih =>
    intro acc hacc
    simp only [List.foldl_cons]
    apply ih
    by_cases hr : r.name ∈ keysOf acc
    · simpa [hr] using hacc
    · rw [if_neg hr]
      intro p hp
      rcases List.mem_append.mp hp with h1 | h1
      · exact hacc p h1
      · simp at h1
        rw [h1]

theorem adj_initGraph (rois : List ROI) (y : String) :
    adj (initGraph rois) y = [] := by
  unfold adj
  cases hl : alookup (initGraph rois) y with
  | none => simp
  | some l =>
    have := initGraph_entries rois (y, l) (alookup_mem hl)
    simpa using this

theorem mem_keysOf_initGraph (rois : List ROI) (x : String) :
    x ∈ keysOf (initGraph rois) ↔ x ∈ rois.map (·.name) := by
  unfold initGraph
  suffices h : ∀ (l : List ROI) (acc : List (String × List String)),
      x ∈ keysOf (l.foldl
        (fun g r => if r.name ∈ keysOf g then g else g ++ [(r.name, [])]) acc) ↔
      x ∈ keysOf acc ∨ x ∈ l.map (·.name) by
    rw [h rois []]
    simp
  intro l
  induction l with
  | nil => intro acc; simp
  | cons r t ih =>
    intro acc
    simp only [List.foldl_cons, List.map_cons, List.mem_cons]
    rw [ih]
    by_cases hr : r.name ∈ keysOf acc
    · rw [if_pos hr]
      constructor
      · rintro (h1 | h1)
        · exact Or.inl h1
        · exact Or.inr (Or.inr h1)
      · rintro (h1 | h1 | h1)
        · exact Or.inl h1
        · rw [h1]; exact Or.inl hr
        · exact Or.inr h1
    · rw [if_neg hr, keysOf_append]
      simp only [List.mem_append]
      constructor
      · rintro (h1 | h1)
        · rcases h1 with h2 | h2
          · exact Or.inl h2
          · simp at h2
            exact Or.inr (Or.inl h2)
        · exact Or.inr (Or.inr h1)
      · rintro (h1 | h1 | h1)
        · exact Or.inl (Or.inl h1)
        · exact Or.inl (Or.inr (by simp [h1]))
        · exact Or.inr h1

theorem keysOf_inner_fold (m : ShapelyModel) (r : ROI) :
    ∀ (l : List ROI) (g : List (String × List String)),
      keysOf (l.foldl
        (fun g s => if roi_intersect m r s then addEdge g r.name s.name else g) g) =
      keysOf g := by
  intro l
  induction l with
  | nil => intro g; rfl
  | cons s t ih =>
    intro g
    simp only [List.foldl_cons]
    rw [ih]
    by_cases hi : roi_intersect m r s
    · rw [if_pos hi, keysOf_addEdge]
    · rw [if_neg hi]

theorem keysOf_addPairs (m : ShapelyModel) :
    ∀ (rois : List ROI) (g : List (String × List String)),
      keysOf (addPairs m rois g) = keysOf g := by
  intro rois
  induction rois with
  | nil => intro g; rfl
  | cons r t ih =>
    intro g
    show keysOf (addPairs m t _) = _
    rw [ih, keysOf_inner_fold]

theorem inner_fold_symm (m : ShapelyModel) (r : ROI) :
    ∀ (l : List ROI) (g : List (String × List String)),
      (∀ x y, x ∈ adj g y ↔ y ∈ adj g x) →
      r.name ∈ keysOf g → (∀ s ∈ l, s.name ∈ keysOf g) →
      ∀ x y,
        x ∈ adj (l.foldl
          (fun g s => if roi_intersect m r s then addEdge g r.name s.name else g) g) y ↔
        y ∈ adj (l.foldl
          (fun g s => if roi_intersect m r s then addEdge g r.name s.name else g) g) x := by
  intro l
  induction l with
  | nil => intro g hsym _ _; exact hsym
  | cons s t ih =>
    intro g hsym hr hl
    simp only [List.foldl_cons]
    by_cases hi : roi_intersect m r s
    · rw [if_pos hi]
      exact ih (addEdge g r.name s.name)
        (addEdge_symm hsym hr (hl s (by simp)))
        (by rw [keysOf_addEdge]; exact hr)
        (by intro u hu; rw [keysOf_addEdge]; exact hl u (by simp [hu]))
    · rw [if_neg hi]
      exact ih g hsym hr (fun u hu => hl u (by simp [hu]))

theorem addPairs_symm (m : ShapelyModel) :
    ∀ (rois : List ROI) (g : List (String × List String)),
      (∀ x y, x ∈ adj g y ↔ y ∈ adj g x) →
      (∀ r ∈ rois, r.name ∈ keysOf g) →
      ∀ x y, x ∈ adj (addPairs m rois g) y ↔ y ∈ adj (addPairs m rois g) x := by
  intro rois
  induction rois with
  | nil => intro g hsym _; exact hsym
  | cons r t ih =>
    intro g hsym hkeys
    exact ih
      (t.foldl (fun g s => if roi_intersect m r s then addEdge g r.name s.name else g) g)
      (inner_fold_symm m r t g hsym (hkeys r (by simp)) (fun s hs => hkeys s (by simp [hs])))
      (by
        intro u hu
        rw [keysOf_inner_fold]
        exact hkeys u (by simp [hu]))

theorem inner_fold_no_self_loop (m : ShapelyModel) (r : ROI) :
    ∀ (l : List ROI) (g : List (String × List String)),
      (∀ s ∈ l, r.name ≠ s.name) →
      (∀ c, c ∉ adj g c) →
      ∀ c, c ∉ adj (l.foldl
        (fun g s => if roi_intersect m r s then addEdge g r.name s.name else g) g) c := by
  intro l
  induction l with
  | nil => intro g _ h; exact h
  | cons s t ih =>
    intro g hne h
    simp only [List.foldl_cons]
    by_cases hi : roi_intersect m r s
    · rw [if_pos hi]
      exact ih _ (fun u hu => hne u (by simp [hu]))
        (addEdge_no_self_loop (hne s (by simp)) h)
    · rw [if_neg hi]
      exact ih _ (fun u hu => hne u (by simp [hu])) h

theorem addPairs_no_self_loop (m : ShapelyModel) :
    ∀ (rois : List ROI) (g : List (String × List String)),
      (rois.map (·.name)).Nodup →
      (∀ c, c ∉ adj g c) →
      ∀ c, c ∉ adj (addPairs m rois g) c := by
  intro rois
  induction rois with
  | nil => intro g _ h; exact h
  | cons r t ih =>
    intro g hnd h
    rw [List.map_cons] at hnd
    obtain ⟨hnotin, hnd2⟩ := List.nodup_cons.mp hnd
    have hne : ∀ s ∈ t, r.name ≠ s.name := by
      intro s hs heq
      exact hnotin (List.mem_map.mpr ⟨s, hs, heq.symm⟩)
    exact ih _ hnd2 (inner_fold_no_self_loop m r t g hne h)

/-! ### Claim theorems for the conflict graph -/

/-- C2 (amended).  For every oracle and every collection of regions the
graph built by `build_conflict_graph` is symmetric; and it has no
self-loops provided the region names are pairwise distinct.  (With
duplicated names a self-loop is possible — see the counterexample.) -/
theorem build_conflict_graph_symm (m : ShapelyModel) (rois : List ROI) :
    (∀ x y, x ∈ adj (build_conflict_graph m rois) y ↔
      y ∈ adj (build_conflict_graph m rois) x) ∧
    ((rois.map (·.name)).Nodup →
      ∀ a, a ∉ adj (build_conflict_graph m rois) a) := by
  constructor
  · apply addPairs_symm
    · intro x y
      rw [adj_initGraph, adj_initGraph]
      simp
    · intro r hr
      rw [mem_keysOf_initGraph]
      exact List.mem_map.mpr ⟨r, hr, rfl⟩
  · intro hnd
    apply addPairs_no_self_loop m rois _ hnd
    intro c hc
    rw [adj_initGraph] at hc
    simp at hc

/-- Shapely's `Polygon.bounds`: (min x, min y, max x, max y) of the
coordinate ring; raises (here: `none`) on an empty geometry. -/
def listBounds (p : Poly) : Option (ℚ × ℚ × ℚ × ℚ) :=
  match p with
  | [] => none
  | q :: rest =>
    some (rest.foldl (fun acc r => min acc r.1) q.1,
      rest.foldl (fun acc r => min acc r.2) q.2,
      rest.foldl (fun acc r => max acc r.1) q.1,
      rest.foldl (fun acc r => max acc r.2) q.2)

/-- The closed unit square ring. -/
def sqPoly : Poly := [(0, 0), (1, 0), (1, 1), (0, 1), (0, 0)]

/-- Oracle recording shapely's answers on the unit square: it is valid,
has area 1, and intersected with itself has intersection area 1. -/
def mUnitSq : ShapelyModel where
  is_valid := fun _ => true
  area := fun _ => 1
  inter_area := fun _ _ => some 1
  intersects := fun _ _ => some true
  bounds := listBounds

/-- Two distinct regions that share the display name "a" and carry the
same unit square on the same z level — legal structure-set content,
since names are not unique in source data. -/
def roiDupA1 : ROI := ⟨1, "a", [(0, [sqPoly])]⟩

def roiDupA2 : ROI := ⟨2, "a", [(0, [sqPoly])]⟩

/-- Counterexample for C2 as stated: with two intersecting regions of
the same name, `build_conflict_graph` adds the edge as
`graph["a"].add("a")` on both endpoints — a self-loop. -/
theorem build_conflict_graph_self_loop_cex :
    "a" ∈ adj (build_conflict_graph mUnitSq [roiDupA1, roiDupA2]) "a" := by
  decide

def roiB1 : ROI := ⟨1, "a", [(0, [sqPoly])]⟩

def roiB2 : ROI := ⟨2, "b", [(0, [sqPoly])]⟩

theorem build_conflict_graph_symm_witness :
    ("b" ∈ adj (build_conflict_graph mUnitSq [roiB1, roiB2]) "a" ↔
      "a" ∈ adj (build_conflict_graph mUnitSq [roiB1, roiB2]) "b") ∧
    ([roiB1, roiB2].map (·.name)).Nodup ∧
    ∀ a, a ∉ adj (build_conflict_graph mUnitSq [roiB1, roiB2]) a :=
  ⟨(build_conflict_graph_symm mUnitSq [roiB1, roiB2]).1 "b" "a",
    by decide,
    (build_conflict_graph_symm mUnitSq [roiB1, roiB2]).2 (by decide)⟩

/-- C8.  Two regions with disjoint z-level key sets are never reported
as intersecting — `roi_intersect` returns `False` before any geometry
oracle is consulted — and consequently building the conflict graph of
the two adds no edge at all: the graph stays the all-isolated initial
graph. -/
theorem roi_intersect_disjoint_z (m : ShapelyModel) (a b : ROI)
    (h : ∀ z ∈ keysOf a.slices, z ∉ keysOf b.slices) :
    roi_intersect m a b = false ∧
    ∀ x, adj (build_conflict_graph m [a, b]) x = [] := by
  have hfalse : roi_intersect m a b = false := by
    unfold roi_intersect
    have hcommon :
        (keysOf a.slices).filter (fun z => decide (z ∈ keysOf b.slices)) = [] := by
      apply List.filter_eq_nil_iff.mpr
      intro z hz
      simp only [decide_eq_true_eq]
      exact h z hz
    rw [hcommon]
    simp
  refine ⟨hfalse, ?_⟩
  intro x
  show adj (addPairs m [a, b] (initGraph [a, b])) x = []
  simp only [addPairs, List.foldl_cons, List.foldl_nil, hfalse]
  rw [if_neg (by simp)]
  exact adj_initGraph [a, b] x

/-- Witness for C8: the two regions lie on different z levels (0 and 1);
the oracle `mUnitSq` would report their identical squares as
intersecting if it were ever consulted, yet no edge forms. -/
def roiZ0 : ROI := ⟨1, "a", [(0, [sqPoly])]⟩

def roiZ1 : ROI := ⟨2, "b", [(1, [sqPoly])]⟩

theorem roi_intersect_disjoint_z_witness :
    (∀ z ∈ keysOf roiZ0.slices, z ∉ keysOf roiZ1.slices) ∧
    roi_intersect mUnitSq roiZ0 roiZ1 = false ∧
    ∀ x, adj (build_conflict_graph mUnitSq [roiZ0, roiZ1]) x = [] :=
  ⟨by decide,
    (roi_intersect_disjoint_z mUnitSq roiZ0 roiZ1 (by decide)).1,
    (roi_intersect_disjoint_z mUnitSq roiZ0 roiZ1 (by decide)).2⟩

theorem close3_dedup_length (xy : List Pt) :
    (close3 xy).dedup.length = xy.dedup.length := by
  unfold close3
  by_cases h : xy.length = 3
  · rw [if_pos h]
    cases xy with
    | nil => simp at h
    | cons p rest =>
      have htake : (p :: rest).take 1 = [p] := by simp
      rw [htake]
      have h1 := List.card_toFinset ((p :: rest) ++ [p])
      have h2 := List.card_toFinset (p :: rest)
      rw [← h1, ← h2]
      congr 1
      ext q
      simp [List.toFinset_append]
      tauto
  · rw [if_neg h]

/-- C6.  `ROI.add_polygon` (i) stores nothing for an input with fewer
than 3 distinct points — inputs shorter than 3 are dropped by the length
guard, and longer inputs collapse to a degenerate ring whose shapely
area is 0 (the stated oracle hypothesis) and so fail the positive-area
check; (ii) closes an exactly-3-point input by appending the first point
and stores the closed ring whenever shapely accepts it (valid, positive
area); (iii) stores nothing whenever the resulting ring's area is not
positive. -/
theorem add_polygon_spec (m : ShapelyModel) :
    (∀ (r : ROI) (z : ℚ) (xy : List Pt),
      (∀ p : Poly, p.dedup.length < 3 → m.area p = 0) →
      xy.dedup.length < 3 → ROI.add_polygon m r z xy = r) ∧
    (∀ (r : ROI) (z : ℚ) (p1 p2 p3 : Pt),
      m.is_valid [p1, p2, p3, p1] = true → 0 < m.area [p1, p2, p3, p1] →
      ROI.add_polygon m r z [p1, p2, p3] =
        { r with slices := slicesAppend r.slices z [p1, p2, p3, p1] }) ∧
    (∀ (r : ROI) (z : ℚ) (xy : List Pt),
      m.area (close3 xy) ≤ 0 → ROI.add_polygon m r z xy = r) := by
  refine ⟨?_, ?_, ?_⟩
  · intro r z xy hdeg hxy
    unfold ROI.add_polygon
    by_cases hlen : xy.length < 3
    · rw [if_pos hlen]
    · rw [if_neg hlen]
      have harea : m.area (close3 xy) = 0 := by
        apply hdeg
        rw [close3_dedup_length]
        exact hxy
      rw [harea]
      simp
  · intro r z p1 p2 p3 hvalid harea
    unfold ROI.add_polygon
    rw [if_neg (by simp)]
    have hclose : close3 [p1, p2, p3] = [p1, p2, p3, p1] := by
      unfold close3
      rw [if_pos (by simp)]
      simp
    rw [hclose, hvalid]
    simp only [Bool.true_and, decide_eq_true_eq]
    rw [if_pos harea]
  · intro r z xy harea
    unfold ROI.add_polygon
    by_cases hlen : xy.length < 3
    · rw [if_pos hlen]
    · rw [if_neg hlen]
      have : decide (0 < m.area (close3 xy)) = false :=
        decide_eq_false (by exact absurd · (by exact fun h => absurd harea (not_le.mpr h)))
      rw [this]
      simp

/-- Oracles for the witness: `mAreaZero` answers area 0 for every ring,
`mAreaOne` accepts every ring with area 1. -/
def mAreaZero : ShapelyModel where
  is_valid := fun _ => true
  area := fun _ => 0
  inter_area := fun _ _ => none
  intersects := fun _ _ => none
  bounds := fun _ => none

def mAreaOne : ShapelyModel where
  is_valid := fun _ => true
  area := fun _ => 1
  inter_area := fun _ _ => none
  intersects := fun _ _ => none
  bounds := fun _ => none

def roiFresh : ROI := ⟨1, "r", []⟩

theorem add_polygon_spec_witness :
    (ROI.add_polygon mAreaZero roiFresh 0 [(0, 0), (0, 0), (0, 0)] = roiFresh) ∧
    (ROI.add_polygon mAreaOne roiFresh 0 [(0, 0), (1, 0), (0, 1)] =
      { roiFresh with
          slices := slicesAppend roiFresh.slices 0 [(0, 0), (1, 0), (0, 1), (0, 0)] }) ∧
    (ROI.add_polygon mAreaZero roiFresh 0 [(0, 0), (1, 0), (1, 1), (0, 1)] = roiFresh) :=
  ⟨(add_polygon_spec mAreaZero).1 roiFresh 0 [(0, 0), (0, 0), (0, 0)]
      (fun _ _ => rfl) (by decide),
    (add_polygon_spec mAreaOne).2.1 roiFresh 0 (0, 0) (1, 0) (0, 1) rfl (by decide),
    (add_polygon_spec mAreaZero).2.2 roiFresh 0 [(0, 0), (1, 0), (1, 1), (0, 1)]
      (by decide)⟩

/-! ### The RTSTRUCT parser `load_rois_from_rtss`

The file handling (`os.path.exists`, `pydicom.dcmread`) happens before
any parsing; the embedding starts from the decoded dataset.  An absent
DICOM attribute (`hasattr` false) is `none`; an attribute that is
present but an empty sequence is `some []`. -/

/-- Python's builtin `round`: round half to even. -/
def pyRound (q : ℚ) : ℤ :=
  if q - (⌊q⌋ : ℚ) < 1 / 2 then ⌊q⌋
  else if (1 : ℚ) / 2 < q - (⌊q⌋ : ℚ) then ⌊q⌋ + 1
  else if ⌊q⌋ % 2 = 0 then ⌊q⌋ else ⌊q⌋ + 1

/-- One entry of `StructureSetROISequence`. -/
structure StructRoiItem where
  roiNumber : ℤ
  roiName : String

/-- One entry of a `ContourSequence`; `contourData` is `none` when the
`ContourData` attribute is absent. -/
structure ContourItem where
  contourData : Option (List ℚ)

/-- One entry of `ROIContourSequence`; `contourSeq` is `none` when the
`ContourSequence` attribute is absent. -/
structure RoiContourItem where
  referencedROINumber : ℤ
  contourSeq : Option (List ContourItem)

/-- The decoded RTSTRUCT dataset, restricted to the attributes the
parser reads. -/
structure RtssDataset where
  structureSetROISequence : Option (List StructRoiItem)
  roiContourSequence : Option (List RoiContourItem)

/-- Python dict assignment `d[k] = v`: overwrite in place, or append a
new entry, keeping first-insertion key order. -/
def dictInsert {κ β : Type} [DecidableEq κ] (l : List (κ × β)) (k : κ) (v : β) :
    List (κ × β) :=
  if k ∈ keysOf l then l.map (fun p => if p.1 = k then (p.1, v) else p)
  else l ++ [(k, v)]

/-- In-place mutation of the dict entry at `k` (Python objects are
mutated through the reference `rois.get(num)` returns). -/
def dictUpdate {κ β : Type} [DecidableEq κ] (l : List (κ × β)) (k : κ)
    (f : β → β) : List (κ × β) :=
  l.map (fun p => if p.1 = k then (p.1, f p.2) else p)

/-- `np.array(data).reshape(-1, 3)`: groups the flat number list into
(x,y,z) triples, `none` (the caught ValueError) unless the length is a
multiple of 3. -/
def toTriples : List ℚ → Option (List (ℚ × ℚ × ℚ))
  | [] => some []
  | x :: y :: z :: rest => (toTriples rest).map (fun l => (x, y, z) :: l)
  | _ => none

/-- One contour of the parse loop: skipped if `ContourData` is absent or
not reshapeable; otherwise the z bucket is the mean z snapped to the
`z_tol` grid and the (x,y) list goes to `add_polygon` of the referenced
ROI.  (For an empty point list `np.mean` yields nan where `ℚ` yields 0;
either way `add_polygon` drops the empty input before using z.) -/
def processContour (m : ShapelyModel) (z_tol : ℚ) (rois : List (ℤ × ROI))
    (num : ℤ) (c : ContourItem) : List (ℤ × ROI) :=
  match c.contourData with
  | none => rois
  | some data =>
    match toTriples data with
    | none => rois
    | some pts =>
      let zmean := (pts.map (fun p => p.2.2)).sum / ((pts.length : ℚ))
      let z := (pyRound (zmean / z_tol) : ℚ) * z_tol
      let xy := pts.map (fun p => (p.1, p.2.1))
      dictUpdate rois num (fun r => ROI.add_polygon m r z xy)

/-- One `ROIContourSequence` entry: skipped when the referenced number
is not a key of the rois dict or when `ContourSequence` is absent. -/
def processRoiContour (m : ShapelyModel) (z_tol : ℚ) (rois : List (ℤ × ROI))
    (rc : RoiContourItem) : List (ℤ × ROI) :=
  match alookup rois rc.referencedROINumber with
  | none => rois
  | some _ =>
    match rc.contourSeq with
    | none => rois
    | some contours =>
      contours.foldl
        (fun rois c => processContour m z_tol rois rc.referencedROINumber c) rois

/-- `roi_info = {roi.ROINumber: roi.ROIName for roi in ...}`. -/
def buildRoiInfo (ssItems : List StructRoiItem) : List (ℤ × String) :=
  ssItems.foldl (fun acc it => dictInsert acc it.roiNumber it.roiName) []

/-- The construction of the initial `rois` dict.  Python's
`if roi_names_filter:` is truthiness: `None` and the empty list both
take the unfiltered branch. -/
def initRois (roi_info : List (ℤ × String)) (filt : Option (List String)) :
    List (ℤ × ROI) :=
  match filt with
  | some (n :: ns) =>
    ((roi_info.filter (fun p => decide (p.2 ∈ n :: ns))).map (·.1)).foldl
      (fun acc num =>
        match alookup roi_info num with
        | some name => dictInsert acc num ⟨num, name, []⟩
        | none => acc) []
  | _ => roi_info.foldl (fun acc p => dictInsert acc p.1 ⟨p.1, p.2, []⟩) []

/-- `load_rois_from_rtss`, from the decoded dataset on: fails (raises
ValueError) iff one of the two required top-level sequences is absent;
otherwise accumulates contours into the rois and returns those with at
least one populated slice. -/
def load_rois_from_rtss (m : ShapelyModel) (ds : RtssDataset) (z_tol : ℚ)
    (roi_names_filter : Option (List String)) : Except String (List ROI) :=
  match ds.structureSetROISequence with
  | none => .error "RTSTRUCT missing StructureSetROISequence"
  | some ssItems =>
    match ds.roiContourSequence with
    | none => .error "RTSTRUCT missing ROIContourSequence"
    | some rcItems =>
      .ok (((rcItems.foldl (fun rois rc => processRoiContour m z_tol rois rc)
          (initRois (buildRoiInfo ssItems) roi_names_filter)).map (·.2)).filter
            (fun r => !r.slices.isEmpty))

theorem processRoiContour_nil (m : ShapelyModel) (z_tol : ℚ) (rc : RoiContourItem) :
    processRoiContour m z_tol [] rc = [] := rfl

theorem foldl_processRoiContour_nil (m : ShapelyModel) (z_tol : ℚ) :
    ∀ rcs : List RoiContourItem,
      rcs.foldl (fun rois rc => processRoiContour m z_tol rois rc) [] = [] := by
  intro rcs
  induction rcs with
  | nil => rfl
  | cons rc t ih =>
    simp only [List.foldl_cons, processRoiContour_nil]
    exact ih

theorem initRois_nil (filt : Option (List String)) : initRois [] filt = [] := by
  unfold initRois
  cases filt with
  | none => rfl
  | some l => cases l with
    | nil => rfl
    | cons n ns => rfl

/-- C3 (amended).  The parser fails with the MalformedStructureSet
error, returning no partial result, when the ROI declaration list is
absent; when the list is present but empty the parse succeeds and
returns the empty collection instead of failing. -/
theorem load_rtss_missing_sequence (m : ShapelyModel) (ds : RtssDataset)
    (z_tol : ℚ) (filt : Option (List String)) :
    (ds.structureSetROISequence = none →
      load_rois_from_rtss m ds z_tol filt =
        .error "RTSTRUCT missing StructureSetROISequence") ∧
    (∀ rcs, ds.structureSetROISequence = some [] →
      ds.roiContourSequence = some rcs →
      load_rois_from_rtss m ds z_tol filt = .ok []) := by
  constructor
  · intro h
    unfold load_rois_from_rtss
    rw [h]
  · intro rcs hss hrc
    unfold load_rois_from_rtss
    rw [hss, hrc]
    show Except.ok (((rcs.foldl (fun rois rc => processRoiContour m z_tol rois rc)
      (initRois (buildRoiInfo []) filt)).map (·.2)).filter
        (fun r => !r.slices.isEmpty)) = Except.ok []
    rw [show buildRoiInfo [] = [] from rfl, initRois_nil,
      foldl_processRoiContour_nil]
    rfl

/-- Counterexample for C3 as stated: a record whose ROI declaration list
is present but empty — and which even carries a contour group — parses
to the empty collection `.ok []`; it does not fail. -/
theorem load_rtss_empty_roi_list_cex :
    load_rois_from_rtss mUnitSq
      ⟨some [], some [⟨5, some [⟨some [0, 0, 0]⟩]⟩]⟩ 1 none = .ok [] := by
  rfl

theorem load_rtss_missing_sequence_witness :
    load_rois_from_rtss mUnitSq (⟨none, some []⟩ : RtssDataset) 1 none =
        .error "RTSTRUCT missing StructureSetROISequence" ∧
      load_rois_from_rtss mUnitSq (⟨some [], some []⟩ : RtssDataset) 1 none = .ok [] :=
  ⟨(load_rtss_missing_sequence mUnitSq ⟨none, some []⟩ 1 none).1 rfl,
    (load_rtss_missing_sequence mUnitSq ⟨some [], some []⟩ 1 none).2 [] rfl rfl⟩

/-! ### Coordinate transforms (`utils.py`)

Patient-space points and geometries over exact rationals; the direction
matrix is a row-major 3×3 matrix, inverted by `np.linalg.inv`, modelled
by the adjugate formula with `none` for the LinAlgError on a singular
input. -/

structure Vec3 where
  x : ℚ
  y : ℚ
  z : ℚ
deriving DecidableEq

structure Mat3 where
  m00 : ℚ
  m01 : ℚ
  m02 : ℚ
  m10 : ℚ
  m11 : ℚ
  m12 : ℚ
  m20 : ℚ
  m21 : ℚ
  m22 : ℚ
deriving DecidableEq

def Mat3.det (M : Mat3) : ℚ :=
  M.m00 * (M.m11 * M.m22 - M.m12 * M.m21)
    - M.m01 * (M.m10 * M.m22 - M.m12 * M.m20)
    + M.m02 * (M.m10 * M.m21 - M.m11 * M.m20)

def Mat3.mulVec (M : Mat3) (v : Vec3) : Vec3 :=
  ⟨M.m00 * v.x + M.m01 * v.y + M.m02 * v.z,
    M.m10 * v.x + M.m11 * v.y + M.m12 * v.z,
    M.m20 * v.x + M.m21 * v.y + M.m22 * v.z⟩

/-- `np.linalg.inv(dir_mat)`: the adjugate divided by the determinant;
`none` models the LinAlgError raised on a singular matrix. -/
def Mat3.inv (M : Mat3) : Option Mat3 :=
  if M.det = 0 then none
  else some
    ⟨(M.m11 * M.m22 - M.m12 * M.m21) / M.det,
      (M.m02 * M.m21 - M.m01 * M.m22) / M.det,
      (M.m01 * M.m12 - M.m02 * M.m11) / M.det,
      (M.m12 * M.m20 - M.m10 * M.m22) / M.det,
      (M.m00 * M.m22 - M.m02 * M.m20) / M.det,
      (M.m02 * M.m10 - M.m00 * M.m12) / M.det,
      (M.m10 * M.m21 - M.m11 * M.m20) / M.det,
      (M.m01 * M.m20 - M.m00 * M.m21) / M.det,
      (M.m00 * M.m11 - M.m01 * M.m10) / M.det⟩

def vsub (a b : Vec3) : Vec3 := ⟨a.x - b.x, a.y - b.y, a.z - b.z⟩

def vadd (a b : Vec3) : Vec3 := ⟨a.x + b.x, a.y + b.y, a.z + b.z⟩

def vmul (a b : Vec3) : Vec3 := ⟨a.x * b.x, a.y * b.y, a.z * b.z⟩

def vdiv (a b : Vec3) : Vec3 := ⟨a.x / b.x, a.y / b.y, a.z / b.z⟩

/-- `patient_to_index(pt_xyz, origin, spacing, direction)`:
`inv(direction) · (pt − origin)`, divided elementwise by spacing. -/
def patient_to_index (pt origin spacing : Vec3) (dir : Mat3) : Option Vec3 :=
  (dir.inv).map (fun inv => vdiv (inv.mulVec (vsub pt origin)) spacing)

/-- `indices_to_patient(index_xyz, origin, spacing, direction)`:
`direction · (index ⊙ spacing) + origin`. -/
def indices_to_patient (idx origin spacing : Vec3) (dir : Mat3) : Vec3 :=
  vadd (dir.mulVec (vmul idx spacing)) origin

/-- C5.  For an invertible direction matrix and nonzero spacings, the
index-to-patient transform inverts the patient-to-index transform
exactly over rational arithmetic. -/
theorem patient_index_round_trip (pt origin spacing : Vec3) (dir : Mat3)
    (idx : Vec3) (hdet : dir.det ≠ 0)
    (hsx : spacing.x ≠ 0) (hsy : spacing.y ≠ 0) (hsz : spacing.z ≠ 0)
    (h : patient_to_index pt origin spacing dir = some idx) :
    indices_to_patient idx origin spacing dir = pt := by
  unfold patient_to_index Mat3.inv at h
  rw [if_neg hdet] at h
  simp only [Option.map, Option.some.injEq] at h
  subst h
  unfold Mat3.det at hdet
  obtain ⟨px, py, pz⟩ := pt
  obtain ⟨ox, oy, oz⟩ := origin
  obtain ⟨sx, sy, sz⟩ := spacing
  obtain ⟨a11, a12, a13, a21, a22, a23, a31, a32, a33⟩ := dir
  unfold indices_to_patient Mat3.mulVec Mat3.det vadd vmul vdiv vsub
  simp only [Vec3.mk.injEq]
  simp only [Mat3.det] at hdet ⊢
  refine ⟨?_, ?_, ?_⟩ <;>
    · field_simp
      ring

def dirW : Mat3 := ⟨1, 0, 0, 0, 1, 0, 0, 0, 2⟩

def ptW : Vec3 := ⟨3, 5, 7⟩

def oW : Vec3 := ⟨1, 1, 1⟩

def sW : Vec3 := ⟨1, 2, 1⟩

theorem patient_index_round_trip_witness :
    patient_to_index ptW oW sW dirW = some ⟨2, 2, 3⟩ ∧
    indices_to_patient ⟨2, 2, 3⟩ oW sW dirW = ptW := by
  have h : patient_to_index ptW oW sW dirW = some ⟨2, 2, 3⟩ := by
    norm_num [patient_to_index, Mat3.inv, Mat3.det, Mat3.mulVec, vdiv, vsub,
      dirW, ptW, oW, sW]
  exact ⟨h, patient_index_round_trip ptW oW sW dirW ⟨2, 2, 3⟩
    (by norm_num [Mat3.det, dirW]) (by norm_num [sW]) (by norm_num [sW])
    (by norm_num [sW]) h⟩

/-! ### Rasterizer (`rtstruct.py`)

Masks are modelled as boolean functions of (row, column); matplotlib's
`Path.contains_points` is the `PathOracle` parameter. -/

abbrev Mask := ℕ → ℕ → Bool

def maskZero : Mask := fun _ _ => false

def maskOr (m1 m2 : Mask) : Mask := fun i j => m1 i j || m2 i j

/-- Oracle for matplotlib `Path(poly).contains_points([pt])`. -/
structure PathOracle where
  containsPoint : List (ℚ × ℚ) → ℚ × ℚ → Bool

/-- `np.ceil` into `int` as the integer ceiling. -/
def qCeil (q : ℚ) : ℤ := -⌊-q⌋

/-- `polygon_to_mask(poly_xy, shape)`: all-false for fewer than 3
vertices; otherwise the polygon's integer bounding box is clipped to
the mask bounds, an empty clipped box gives all-false, and inside the
box each integer grid point is tested with the path oracle. -/
def polygon_to_mask (O : PathOracle) (poly : List (ℚ × ℚ)) (rows cols : ℕ) :
    Mask :=
  if poly.length < 3 then maskZero
  else
    match poly with
    | [] => maskZero
    | p0 :: rest =>
      if max ⌊(rest.map (·.1)).foldl min p0.1⌋ 0 >
            min (qCeil ((rest.map (·.1)).foldl max p0.1)) ((cols : ℤ) - 1) ∨
          max ⌊(rest.map (·.2)).foldl min p0.2⌋ 0 >
            min (qCeil ((rest.map (·.2)).foldl max p0.2)) ((rows : ℤ) - 1) then
        maskZero
      else fun yi xi =>
        if max ⌊(rest.map (·.1)).foldl min p0.1⌋ 0 ≤ (xi : ℤ) ∧
            (xi : ℤ) ≤ min (qCeil ((rest.map (·.1)).foldl max p0.1)) ((cols : ℤ) - 1) ∧
            max ⌊(rest.map (·.2)).foldl min p0.2⌋ 0 ≤ (yi : ℤ) ∧
            (yi : ℤ) ≤ min (qCeil ((rest.map (·.2)).foldl max p0.2)) ((rows : ℤ) - 1) then
          O.containsPoint poly ((xi : ℚ), (yi : ℚ))
        else false

/-- The per-region slice dict `per_slice`. -/
abbrev SliceMap := List (ℤ × Mask)

/-- `per_slice[k] = per_slice[k] | mask` or a fresh entry. -/
def updateOr (per : SliceMap) (k : ℤ) (mask : Mask) : SliceMap :=
  if k ∈ keysOf per then
    per.map (fun p => if p.1 = k then (p.1, maskOr p.2 mask) else p)
  else per ++ [(k, mask)]

def insSorted (x : ℤ) : List ℤ → List ℤ
  | [] => [x]
  | y :: ys => if x ≤ y then x :: y :: ys else y :: insSorted x ys

def isort : List ℤ → List ℤ
  | [] => []
  | x :: xs => insSorted x (isort xs)

/-- `np.unique`: the sorted distinct values. -/
def npUnique (l : List ℤ) : List ℤ := isort l.dedup

/-- `ks = np.unique(np.round(k_vals).astype(int))` for one contour's
projected index points. -/
def zIndexes (idxs : List Vec3) : List ℤ :=
  npUnique (idxs.map (fun v => pyRound v.z))

/-- The `for k in ks:` loop for one contour: out-of-range slice indices
are skipped; each retained index receives the rasterized polygon, OR-ed
into any mask already stored for that slice. -/
def addContour (O : PathOracle) (zcount rows cols : ℕ) (idxs : List Vec3)
    (per : SliceMap) : SliceMap :=
  (zIndexes idxs).foldl
    (fun per k =>
      if k < 0 ∨ (zcount : ℤ) ≤ k then per
      else updateOr per k
        (polygon_to_mask O (idxs.map (fun v => (v.x, v.y))) rows cols)) per

/-- The `for contour in contours:` loop; `none` models the exception
`patient_to_index` raises on a singular direction matrix, which aborts
the whole call. -/
def rasterizeAux (O : PathOracle) (origin spacing : Vec3) (dir : Mat3)
    (zcount rows cols : ℕ) : List (List Vec3) → SliceMap → Option SliceMap
  | [], per => some per
  | c :: cs, per =>
    match c.mapM (fun pt => patient_to_index pt origin spacing dir) with
    | none => none
    | some idxs =>
      rasterizeAux O origin spacing dir zcount rows cols cs
        (addContour O zcount rows cols idxs per)

/-- The per-region body of `contours_to_slice_masks`: the `per_slice`
dict built for one region's contour list. -/
def rasterizeRegion (O : PathOracle) (contours : List (List Vec3))
    (origin spacing : Vec3) (dir : Mat3) (zcount rows cols : ℕ) :
    Option SliceMap :=
  rasterizeAux O origin spacing dir zcount rows cols contours []

/-- `contours_to_slice_masks(rois, origin, spacing, direction,
volume_shape)` with `volume_shape = (zcount, rows, cols)`. -/
def contours_to_slice_masks (O : PathOracle)
    (rois : List (String × List (List Vec3))) (origin spacing : Vec3)
    (dir : Mat3) (zcount rows cols : ℕ) :
    Option (List (String × SliceMap)) :=
  rois.mapM (fun p =>
    (rasterizeRegion O p.2 origin spacing dir zcount rows cols).map
      (fun per => (p.1, per)))

theorem mem_insSorted {x a : ℤ} : ∀ {l : List ℤ},
    a ∈ insSorted x l ↔ a = x ∨ a ∈ l := by
  intro l
  induction l with
  | nil => simp [insSorted]
  | cons y ys ih =>
    unfold insSorted
    by_cases h : x ≤ y
    · rw [if_pos h]
      simp
    · rw [if_neg h]
      simp only [List.mem_cons, ih]
      tauto

theorem mem_isort {a : ℤ} : ∀ {l : List ℤ}, a ∈ isort l ↔ a ∈ l := by
  intro l
  induction l with
  | nil => simp [isort]
  | cons y ys ih =>
    unfold isort
    rw [mem_insSorted]
    simp [ih]

theorem mem_npUnique {a : ℤ} {l : List ℤ} : a ∈ npUnique l ↔ a ∈ l := by
  unfold npUnique
  rw [mem_isort, List.mem_dedup]

theorem keysOf_updateOr (per : SliceMap) (k : ℤ) (mask : Mask) (x : ℤ) :
    x ∈ keysOf (updateOr per k mask) ↔ x ∈ keysOf per ∨ x = k := by
  unfold updateOr
  by_cases hk : k ∈ keysOf per
  · rw [if_pos hk, keysOf_map_fst_preserve]
    · constructor
      · exact fun h => Or.inl h
      · rintro (h | h)
        · exact h
        · rw [h]; exact hk
    · intro q
      by_cases hq : q.1 = k <;> simp [hq]
  · rw [if_neg hk, keysOf_append]
    simp

theorem keysOf_addContour_aux (zcount : ℕ) (mask : Mask) :
    ∀ (l : List ℤ) (per : SliceMap) (x : ℤ),
      x ∈ keysOf (l.foldl
        (fun per k =>
          if k < 0 ∨ (zcount : ℤ) ≤ k then per else updateOr per k mask) per) ↔
      x ∈ keysOf per ∨ (x ∈ l ∧ 0 ≤ x ∧ x < (zcount : ℤ)) := by
  intro l
  induction l with
  | nil => intro per x; simp
  | cons k0 t ih =>
    intro per x
    simp only [List.foldl_cons]
    rw [ih]
    by_cases hr : k0 < 0 ∨ (zcount : ℤ) ≤ k0
    · rw [if_pos hr]
      simp only [List.mem_cons]
      constructor
      · rintro (h | h)
        · exact Or.inl h
        · exact Or.inr ⟨Or.inr h.1, h.2⟩
      · rintro (h | ⟨h1 | h1, h2⟩)
        · exact Or.inl h
        · subst h1; omega
        · exact Or.inr ⟨h1, h2⟩
    · rw [if_neg hr]
      rw [keysOf_updateOr]
      simp only [List.mem_cons]
      constructor
      · rintro ((h | h) | h)
        · exact Or.inl h
        · subst h; exact Or.inr ⟨Or.inl rfl, by omega⟩
        · exact Or.inr ⟨Or.inr h.1, h.2⟩
      · rintro (h | ⟨h1 | h1, h2⟩)
        · exact Or.inl (Or.inl h)
        · subst h1; exact Or.inl (Or.inr rfl)
        · exact Or.inr ⟨h1, h2⟩

theorem keysOf_addContour (O : PathOracle) (zcount rows cols : ℕ)
    (idxs : List Vec3) (per : SliceMap) (x : ℤ) :
    x ∈ keysOf (addContour O zcount rows cols idxs per) ↔
      x ∈ keysOf per ∨ (x ∈ zIndexes idxs ∧ 0 ≤ x ∧ x < (zcount : ℤ)) := by
  unfold addContour
  exact keysOf_addContour_aux zcount _ (zIndexes idxs) per x

theorem rasterizeAux_keys (O : PathOracle) (origin spacing : Vec3) (dir : Mat3)
    (zcount rows cols : ℕ) :
    ∀ (contours : List (List Vec3)) (acc per : SliceMap),
      rasterizeAux O origin spacing dir zcount rows cols contours acc = some per →
      ∀ k : ℤ, k ∈ keysOf per ↔
        (k ∈ keysOf acc ∨
          (0 ≤ k ∧ k < (zcount : ℤ) ∧ ∃ c ∈ contours, ∃ idxs,
            c.mapM (fun pt => patient_to_index pt origin spacing dir) = some idxs ∧
            k ∈ zIndexes idxs)) := by
  intro contours
  induction contours with
  | nil =>
    intro acc per h k
    simp only [rasterizeAux, Option.some.injEq] at h
    subst h
    simp
  | cons c cs ih =>
    intro acc per h k
    rw [rasterizeAux] at h
    cases hm : c.mapM (fun pt => patient_to_index pt origin spacing dir) with
    | none => rw [hm] at h; cases h
    | some idxs =>
      rw [hm] at h
      rw [ih _ per h k, keysOf_addContour]
      constructor
      · rintro ((h1 | h1) | h1)
        · exact Or.inl h1
        · exact Or.inr ⟨h1.2.1, h1.2.2, c, by simp, idxs, hm, h1.1⟩
        · obtain ⟨hk0, hk1, c2, hc2, idxs2, hm2, hk2⟩ := h1
          exact Or.inr ⟨hk0, hk1, c2, by simp [hc2], idxs2, hm2, hk2⟩
      · rintro (h1 | ⟨hk0, hk1, c2, hc2, idxs2, hm2, hk2⟩)
        · exact Or.inl (Or.inl h1)
        · rcases List.mem_cons.mp hc2 with h2 | h2
          · subst h2
            rw [hm] at hm2
            injection hm2 with hm2
            subst hm2
            exact Or.inl (Or.inr ⟨hk2, hk0, hk1⟩)
          · exact Or.inr ⟨hk0, hk1, c2, h2, idxs2, hm2, hk2⟩

/-- C4 (amended).  For every region rasterized against a volume
geometry, the keys of the returned per-slice mapping are exactly the
in-range slice indices hit by the rounded z projection of some contour —
whether or not the rasterized mask contributed any true pixel (an entry
can hold an all-false mask, e.g. for a degenerate or out-of-view
polygon); in particular a region whose polygons only project to
out-of-range z indices yields an empty mapping. -/
theorem rasterize_region_keys (O : PathOracle) (origin spacing : Vec3)
    (dir : Mat3) (zcount rows cols : ℕ) (contours : List (List Vec3))
    (per : SliceMap)
    (h : rasterizeRegion O contours origin spacing dir zcount rows cols = some per) :
    (∀ k : ℤ, k ∈ keysOf per ↔
      (0 ≤ k ∧ k < (zcount : ℤ) ∧ ∃ c ∈ contours, ∃ idxs,
        c.mapM (fun pt => patient_to_index pt origin spacing dir) = some idxs ∧
        k ∈ zIndexes idxs)) ∧
    ((∀ c ∈ contours, ∀ idxs,
        c.mapM (fun pt => patient_to_index pt origin spacing dir) = some idxs →
        ∀ k ∈ zIndexes idxs, k < 0 ∨ (zcount : ℤ) ≤ k) →
      per = []) := by
  have hkeys := rasterizeAux_keys O origin spacing dir zcount rows cols
    contours [] per h
  constructor
  · intro k
    rw [hkeys k]
    simp [keysOf]
  · intro hout
    have hempty : ∀ k : ℤ, k ∉ keysOf per := by
      intro k hk
      rw [hkeys k] at hk
      rcases hk with h1 | ⟨hk0, hk1, c, hc, idxs, hm, hkz⟩
      · simp [keysOf] at h1
      · rcases hout c hc idxs hm k hkz with h2 | h2 <;> omega
    cases hper : per with
    | nil => rfl
    | cons p t =>
      exact absurd (by rw [hper]; simp [keysOf] : p.1 ∈ keysOf per) (hempty p.1)

def oracleTrue : PathOracle := ⟨fun _ _ => true⟩

def dirId : Mat3 := ⟨1, 0, 0, 0, 1, 0, 0, 0, 1⟩

def vZero : Vec3 := ⟨0, 0, 0⟩

def vOne : Vec3 := ⟨1, 1, 1⟩

/-- Counterexample for C4 as stated: a single-point contour at the
origin projects to the in-range slice 0, whose rasterization
(`polygon_to_mask` of a 1-vertex polygon) is the all-false mask — yet
slice 0 IS a key of the returned mapping, holding that all-false mask.
The mapping's keys are therefore not restricted to slices with a
non-empty contribution. -/
theorem rasterize_allfalse_entry_cex :
    rasterizeRegion oracleTrue [[⟨0, 0, 0⟩]] vZero vOne dirId 1 2 2 =
      some [((0 : ℤ), maskZero)] := by
  have hpt : patient_to_index ⟨0, 0, 0⟩ vZero vOne dirId = some ⟨0, 0, 0⟩ := by
    norm_num [patient_to_index, Mat3.inv, Mat3.det, Mat3.mulVec, vsub, vdiv,
      vZero, vOne, dirId]
  have hmapM : ([(⟨0, 0, 0⟩ : Vec3)]).mapM
      (fun pt => patient_to_index pt vZero vOne dirId) = some [⟨0, 0, 0⟩] := by
    rw [List.mapM_cons, hpt, List.mapM_nil]
    rfl
  have hz : zIndexes [⟨0, 0, 0⟩] = [0] := by
    norm_num [zIndexes, npUnique, pyRound, isort, insSorted, Int.fract]
  have hmask : polygon_to_mask oracleTrue
      (([(⟨0, 0, 0⟩ : Vec3)]).map (fun v => (v.x, v.y))) 2 2 = maskZero := by
    norm_num [polygon_to_mask]
  rw [rasterizeRegion, rasterizeAux, hmapM]
  show some (addContour oracleTrue 1 2 2 [⟨0, 0, 0⟩] []) = _
  rw [addContour, hz, List.foldl_cons, List.foldl_nil]
  rw [if_neg (by norm_num)]
  rw [hmask, updateOr]
  rw [if_neg (by simp [keysOf])]
  rfl

theorem rasterize_region_keys_witness :
    (∀ k : ℤ, k ∈ keysOf ([] : SliceMap) ↔
      (0 ≤ k ∧ k < ((1 : ℕ) : ℤ) ∧ ∃ c ∈ [[(⟨0, 0, 5⟩ : Vec3)]], ∃ idxs,
        c.mapM (fun pt => patient_to_index pt vZero vOne dirId) = some idxs ∧
        k ∈ zIndexes idxs)) ∧
    ((∀ c ∈ [[(⟨0, 0, 5⟩ : Vec3)]], ∀ idxs,
        c.mapM (fun pt => patient_to_index pt vZero vOne dirId) = some idxs →
        ∀ k ∈ zIndexes idxs, k < 0 ∨ ((1 : ℕ) : ℤ) ≤ k) →
      ([] : SliceMap) = []) :=
  rasterize_region_keys oracleTrue vZero vOne dirId 1 2 2 [[⟨0, 0, 5⟩]] []
    (by
      have hpt : patient_to_index ⟨0, 0, 5⟩ vZero vOne dirId = some ⟨0, 0, 5⟩ := by
        norm_num [patient_to_index, Mat3.inv, Mat3.det, Mat3.mulVec, vsub, vdiv,
          vZero, vOne, dirId]
      have hmapM : ([(⟨0, 0, 5⟩ : Vec3)]).mapM
          (fun pt => patient_to_index pt vZero vOne dirId) = some [⟨0, 0, 5⟩] := by
        rw [List.mapM_cons, hpt, List.mapM_nil]
        rfl
      have hz : zIndexes [⟨0, 0, 5⟩] = [5] := by
        norm_num [zIndexes, npUnique, pyRound, isort, insSorted, Int.fract]
      rw [rasterizeRegion, rasterizeAux, hmapM]
      show some (addContour oracleTrue 1 2 2 [⟨0, 0, 5⟩] []) = _
      rw [addContour, hz, List.foldl_cons, List.foldl_nil]
      rw [if_pos (by norm_num)])

end QtViewer
